import Mathlib

/-!
Verification of the attendance accounting core of the office-presence app
(`src/office-presence/src/App.tsx`).  The pure calculation layer is embedded
shallowly: per-day marks, the day-status cycle, the workday filter and the
derived statistics.  Calendar classification (day-of-week and the public
holiday set) is provided by external libraries (`dayjs`, `date-holidays`), so
it is abstracted as a context of classifier functions.
-/

/-- Per-day status, `type DayStatus = "office" | "excused"` in the source. -/
inductive DayStatus where
  | office
  | excused
deriving DecidableEq

/-- Source `type Mark`, a record with fields `d: number` and `status`. -/
structure Mark where
  d : Nat
  status : DayStatus
deriving DecidableEq

/-- Calendar context for one displayed month: number of days in the month,
day-of-week of each day-of-month (JS convention, 0 = Sunday .. 6 = Saturday,
supplied by `dayjs`), and the public-holiday predicate (membership in the
`holidaysSet` built from the `date-holidays` provider). -/
structure CalCtx where
  daysInMonth : Nat
  dow : Nat → Nat
  isHol : Nat → Bool

/-- Source `isWeekend = (d) => [0, 6].includes(d.day())` (App.tsx line 94). -/
def isWeekend (c : CalCtx) (day : Nat) : Bool :=
  c.dow day == 0 || c.dow day == 6

/-- Source `isHoliday = (d) => holidaysSet.has(d.format("YYYY-MM-DD"))` (line 95),
abstracted through the context's holiday predicate. -/
def isHoliday (c : CalCtx) (day : Nat) : Bool :=
  c.isHol day

/-- Source `getStatus = (arr, day) => arr.find((m) => m.d === day)?.status` (line 97). -/
def getStatus (arr : List Mark) (day : Nat) : Option DayStatus :=
  (arr.find? (fun m => m.d == day)).map Mark.status

/-- The comparator `(a, b) => a.d - b.d` of the source's `.sort` call sorts
ascending by day; JS `Array.prototype.sort` is stable, as is `mergeSort`. -/
def markLe (a b : Mark) : Bool :=
  decide (a.d ≤ b.d)

/-- Source `setStatus` (lines 98-101): drop any mark for `day`, then either return the
filtered list (status removed) or append the new mark and re-sort by day. -/
def setStatus (arr : List Mark) (day : Nat) (status : Option DayStatus) : List Mark :=
  let filtered := arr.filter (fun m => decide (m.d ≠ day))
  match status with
  | some s => (filtered ++ [Mark.mk day s]).mergeSort markLe
  | none => filtered

/-- Source `nextStatus3` (lines 103-107): the cycle none → office → excused → none. -/
def nextStatus3 : Option DayStatus → Option DayStatus
  | none => some DayStatus.office
  | some DayStatus.office => some DayStatus.excused
  | some DayStatus.excused => none

/-- Source `handleDayClick` (lines 109-119), restricted to its marks computation: the
guard returns the input unchanged for weekends, holidays, and days strictly
before today when the displayed month/year is today's month/year
(`dt.isBefore(today.startOf("day")) && dt.month() === today.month() &&
dt.year() === today.year()`); otherwise the three-state cycle is applied
through `setStatus`.  `isCurrentMonth` models the month/year comparison and
`todayDom` is today's day-of-month. -/
def toggleDay (c : CalCtx) (isCurrentMonth : Bool) (todayDom : Nat)
    (marks : List Mark) (day : Nat) : List Mark :=
  if isWeekend c day || isHoliday c day then marks
  else if isCurrentMonth && decide (day < todayDom) then marks
  else setStatus marks day (nextStatus3 (getStatus marks day))

/-- Source `excusedSet` (line 147): days of the marks whose status is excused. -/
def excusedSet (marks : List Mark) : List Nat :=
  (marks.filter (fun m => m.status == DayStatus.excused)).map Mark.d

/-- Source `workdays` (lines 149-156): the loop over `i = 1..daysInMonth` keeping the
days that are neither weekend nor holiday nor excused. -/
def workdays (c : CalCtx) (marks : List Mark) : List Nat :=
  (List.range' 1 c.daysInMonth).filter
    (fun i => !isWeekend c i && !isHoliday c i && !(excusedSet marks).contains i)

/-- Source `presentDays` (line 158): marks with office status whose day is a workday. -/
def presentDays (marks : List Mark) (wd : List Nat) : Nat :=
  (marks.filter (fun m => m.status == DayStatus.office && wd.contains m.d)).length

/-- JavaScript `Math.round`: round half toward positive infinity, which is
`⌊x + 1/2⌋` for every real argument. -/
def jsRound (q : ℚ) : ℤ :=
  ⌊q + 1 / 2⌋

/-- Source `baseNeeded = Math.round((requiredPercent / 100) * workdays.length)`
(line 161): the full-time threshold. -/
def baseNeeded (requiredPercent workdayCount : Nat) : ℤ :=
  jsRound ((requiredPercent : ℚ) / 100 * workdayCount)

/-- Source `neededDays = Math.round(baseNeeded * (employmentPercent / 100))`
(line 162): the full-time threshold scaled by the employment fraction. -/
def neededDays (requiredPercent employmentPercent workdayCount : Nat) : ℤ :=
  jsRound ((baseNeeded requiredPercent workdayCount : ℚ) * ((employmentPercent : ℚ) / 100))

/-- The spec's formula for `requiredDays`, written from the spec text:
`round(round(requiredPercent/100 * workdayCount) * employmentFraction/100)`. -/
def requiredDaysSpec (requiredPercent employmentFraction workdayCount : Nat) : ℤ :=
  jsRound ((jsRound ((requiredPercent : ℚ) / 100 * workdayCount) : ℚ) *
    ((employmentFraction : ℚ) / 100))

/-- The single combined rounding the spec contrasts with:
`round(requiredPercent/100 * workdayCount * employmentFraction/100)`. -/
def requiredDaysCombined (requiredPercent employmentFraction workdayCount : Nat) : ℤ :=
  jsRound ((requiredPercent : ℚ) / 100 * workdayCount * ((employmentFraction : ℚ) / 100))

/-- Source `percent = workdays.length ? (presentDays / workdays.length) * 100 : 0`
(line 163), in exact rational arithmetic. -/
def percent (presentCount workdayCount : Nat) : ℚ :=
  if workdayCount = 0 then 0 else ((presentCount : ℚ) / (workdayCount : ℚ)) * 100

/-- Source `missing = Math.max(0, neededDays - presentDays)` (line 164). -/
def missing (needed : ℤ) (presentCount : Nat) : ℤ :=
  max 0 (needed - (presentCount : ℤ))

/-- The stored month document (`MonthDoc`, lines 23-29): optional new-shape
`marks`, optional legacy `days` list, and the two percentage settings, each
optional because the loader applies `?? 40` / `?? 100` defaults. -/
structure MonthDoc where
  marks : Option (List Mark)
  days : Option (List Nat)
  requiredPercent : Option Nat
  employmentPercent : Option Nat

/-- The loader's marks logic (lines 59-61): prefer the new `marks` shape, else
migrate the legacy `days` list to office marks, else the empty list. -/
def loadMarks (docSnap : MonthDoc) : List Mark :=
  match docSnap.marks with
  | some ms => ms
  | none =>
    match docSnap.days with
    | some ds => ds.map (fun n => { d := n, status := DayStatus.office })
    | none => []

/-- Source `setRequiredPercent(d.requiredPercent ?? 40)` (line 62). -/
def loadRequiredPercent (docSnap : MonthDoc) : Nat :=
  docSnap.requiredPercent.getD 40

/-- Source `setEmploymentPercent(d.employmentPercent ?? 100)` (line 63). -/
def loadEmploymentPercent (docSnap : MonthDoc) : Nat :=
  docSnap.employmentPercent.getD 100

/-- A write payload sent to the document store.  The `days` field is carried
so that "the legacy shape is never written again" is expressible: every
payload the code builds has `days = none`. -/
structure StorePayload where
  marks : Option (List Mark)
  days : Option (List Nat)
  requiredPercent : Option Nat
  employmentPercent : Option Nat

/-- The payload of the lazy-initialisation write (lines 65-70). -/
def initPayload : StorePayload :=
  { marks := some [], days := none, requiredPercent := some 40, employmentPercent := some 100 }

/-- The payload written by `handleDayClick` (lines 122-126). -/
def clickPayload (nextMarks : List Mark) (rp ep : Nat) : StorePayload :=
  { marks := some nextMarks, days := none, requiredPercent := some rp, employmentPercent := some ep }

/-- Source `Math.max(0, Math.min(100, val))` (lines 130 and 139). -/
def clampPercent (v : ℤ) : ℤ :=
  max 0 (min 100 v)

/-- The payload written by `savePercent` (lines 129-135). -/
def savePercentPayload (v : ℤ) : StorePayload :=
  { marks := none, days := none,
    requiredPercent := some (clampPercent v).toNat, employmentPercent := none }

/-- The payload written by `saveEmployment` (lines 138-144). -/
def saveEmploymentPayload (v : ℤ) : StorePayload :=
  { marks := none, days := none,
    requiredPercent := none, employmentPercent := some (clampPercent v).toNat }

/-- A concrete sample month: 28 days starting on a Monday, no holidays, so
the workdays are the 20 non-weekend days. -/
def sampleCtx : CalCtx :=
  { daysInMonth := 28, dow := fun d => d % 7, isHol := fun _ => false }

/-- Five office marks on the first five (work)days of the sample month. -/
def sampleMarks : List Mark :=
  [⟨1, DayStatus.office⟩, ⟨2, DayStatus.office⟩, ⟨3, DayStatus.office⟩,
   ⟨4, DayStatus.office⟩, ⟨5, DayStatus.office⟩]


/-- Ascending-by-day (non-strict), the order established by the `.sort` call. -/
abbrev MarkSortedLe (l : List Mark) : Prop :=
  l.Pairwise (fun a b => a.d ≤ b.d)

/-- Strictly ascending by day: sorted with unique days. -/
abbrev MarkSortedLt (l : List Mark) : Prop :=
  l.Pairwise (fun a b => a.d < b.d)

theorem markLe_trans : ∀ a b c : Mark, markLe a b → markLe b c → markLe a c := by
  intro a b c hab hbc
  simp only [markLe, decide_eq_true_eq] at *
  omega

theorem markLe_total : ∀ a b : Mark, markLe a b || markLe b a := by
  intro a b
  simp only [markLe, Bool.or_eq_true, decide_eq_true_eq]
  omega

theorem markSortedLe_of_pairwise_markLe {l : List Mark}
    (h : l.Pairwise (fun a b => markLe a b)) : MarkSortedLe l := by
  refine h.imp ?_
  intro a b hab
  simpa [markLe] using hab

theorem pairwise_markLe_of_markSortedLe {l : List Mark}
    (h : MarkSortedLe l) : l.Pairwise (fun a b => markLe a b) := by
  refine h.imp ?_
  intro a b hab
  simpa [markLe] using hab

/-- A sublist missing exactly one element of the larger list splits both lists
around the extra element. -/
theorem sublist_one_extra {α : Type} : ∀ {u v : List α}, u.Sublist v →
    v.length = u.length + 1 → ∃ w a z, u = w ++ z ∧ v = w ++ a :: z := by
  intro u v hsub
  induction hsub with
  | slnil => intro h; simp at h
  | @cons u' v' a h ih =>
    intro hlen
    simp only [List.length_cons] at hlen
    have huv : u' = v' := h.eq_of_length (by omega)
    subst huv
    exact ⟨[], a, u', by simp⟩
  | @cons₂ u' v' a h ih =>
    intro hlen
    simp only [List.length_cons] at hlen
    obtain ⟨w, e, z, hu, hv⟩ := ih (by omega)
    exact ⟨a :: w, e, z, by simp [hu], by simp [hv]⟩

/-- Appending an element whose day separates a day-sorted list into a strictly
smaller left part and strictly larger right part and re-sorting places the new
element exactly between the two parts.  This captures the behaviour of the
stable `.sort` after `setStatus` appends the fresh mark at the end. -/
theorem mergeSort_sorted_insert {A B : List Mark} {x : Mark}
    (hAB : MarkSortedLe (A ++ B))
    (hA : ∀ a ∈ A, a.d < x.d) (hB : ∀ b ∈ B, x.d < b.d) :
    (A ++ B ++ [x]).mergeSort markLe = A ++ x :: B := by
  have hperm : ((A ++ B ++ [x]).mergeSort markLe).Perm (A ++ B ++ [x]) :=
    List.mergeSort_perm _ _
  have hsorted : MarkSortedLe ((A ++ B ++ [x]).mergeSort markLe) :=
    markSortedLe_of_pairwise_markLe (List.sorted_mergeSort markLe_trans markLe_total _)
  have hsub : (A ++ B).Sublist ((A ++ B ++ [x]).mergeSort markLe) :=
    List.sublist_mergeSort markLe_trans markLe_total
      (pairwise_markLe_of_markSortedLe hAB) (List.sublist_append_left _ _)
  have hlen : ((A ++ B ++ [x]).mergeSort markLe).length = (A ++ B).length + 1 := by
    simp only [List.length_mergeSort, List.length_append, List.length_cons,
      List.length_nil]
  obtain ⟨C, e, D, hCD, hM⟩ := sublist_one_extra hsub hlen
  have hcount : List.count e (C ++ e :: D) = List.count e (A ++ B ++ [x]) := by
    rw [← hM]
    exact hperm.count_eq e
  rw [hCD] at hcount
  simp only [List.count_append, List.count_cons_self] at hcount
  have hone : List.count e [x] = 1 := by omega
  have hex : x = e := by
    by_cases hxe : x = e
    · exact hxe
    · rw [List.count_singleton] at hone
      simp [beq_iff_eq, hxe] at hone
  subst hex
  have hlenCD : A.length + B.length = C.length + D.length := by
    have := congrArg List.length hCD
    simpa using this
  have htake : C = (A ++ B).take C.length := by
    rw [hCD, List.take_left]
  rcases Nat.lt_trichotomy C.length A.length with hlt | heq | hgt
  · exfalso
    have hCA : C = A.take C.length := by
      nth_rewrite 1 [htake]
      rw [List.take_append_of_le_length (Nat.le_of_lt hlt)]
    have hA' : A = C ++ A.drop C.length := by
      conv_lhs => rw [← List.take_append_drop C.length A]
      rw [← hCA]
    have htne : A.drop C.length ≠ [] := by
      simp only [Ne, List.drop_eq_nil_iff]
      omega
    rcases hdrop : A.drop C.length with _ | ⟨a, t'⟩
    · exact htne hdrop
    · have hD : D = (a :: t') ++ B := by
        apply @List.append_cancel_left _ C D ((a :: t') ++ B)
        rw [← hCD, hA', hdrop, List.append_assoc]
      have haA : a ∈ A := by
        rw [hA', hdrop]
        simp
      have hle : x.d ≤ a.d := by
        have hPW := hsorted
        rw [hM, hD] at hPW
        simp only [List.cons_append] at hPW
        have h2 := (List.pairwise_append.mp hPW).2.1
        exact (List.pairwise_cons.mp h2).1 a (by simp)
      have := hA a haA
      omega
  · obtain ⟨hAC, hBD⟩ := List.append_inj hCD heq.symm
    rw [hM, ← hAC, ← hBD]
  · exfalso
    have hC' : C = A ++ B.take (C.length - A.length) := by
      nth_rewrite 1 [htake]
      rw [List.take_append_eq_append_take, List.take_of_length_le (Nat.le_of_lt hgt)]
    have htne : B.take (C.length - A.length) ≠ [] := by
      intro h0
      have := congrArg List.length h0
      simp only [List.length_take, List.length_nil] at this
      omega
    rcases htk : B.take (C.length - A.length) with _ | ⟨b, t'⟩
    · exact htne htk
    · have hbB : b ∈ B := List.take_subset _ _ (by rw [htk]; simp)
      have hle : b.d ≤ x.d := by
        have hPW := hsorted
        rw [hM, hC', htk] at hPW
        simp only [List.cons_append, List.append_assoc] at hPW
        have h2 := (List.pairwise_append.mp hPW).2.1
        exact (List.pairwise_cons.mp h2).1 x (by simp)
      have := hB b hbB
      omega

theorem markSortedLe_of_lt {l : List Mark} (h : MarkSortedLt l) : MarkSortedLe l :=
  h.imp (fun hab => Nat.le_of_lt hab)

/-- The `find?` call returns the unique mark carrying the searched day. -/
theorem find?_day_eq_some (l : List Mark) (x : Mark) (day : Nat)
    (hx : x ∈ l) (hd : x.d = day) (huniq : ∀ m ∈ l, m.d = day → m = x) :
    l.find? (fun m => m.d == day) = some x := by
  induction l with
  | nil => simp at hx
  | cons a t ih =>
    by_cases ha : a.d = day
    · have hax : a = x := huniq a (by simp) ha
      subst hax
      simp [List.find?_cons, ha]
    · have hxt : x ∈ t := by
        rcases List.mem_cons.mp hx with h1 | h1
        · exact absurd (h1 ▸ hd) ha
        · exact h1
      rw [List.find?_cons]
      have hfa : (a.d == day) = false := by simpa using ha
      rw [hfa]
      exact ih hxt (fun m hm hmd => huniq m (List.mem_cons_of_mem a hm) hmd)

theorem getStatus_none_of_bounds (l : List Mark) (day : Nat)
    (h : ∀ m ∈ l, m.d ≠ day) : getStatus l day = none := by
  have hfind : l.find? (fun m => m.d == day) = none :=
    List.find?_eq_none.mpr (fun m hm => by simpa using h m hm)
  simp [getStatus, hfind]

theorem getStatus_split_mid (A B : List Mark) (x : Mark) (day : Nat)
    (hx : x.d = day) (hA : ∀ a ∈ A, a.d < day) (hB : ∀ b ∈ B, day < b.d) :
    getStatus (A ++ x :: B) day = some x.status := by
  have huniq : ∀ m ∈ A ++ x :: B, m.d = day → m = x := by
    intro m hm hmd
    rcases List.mem_append.mp hm with h1 | h1
    · exact absurd hmd (Nat.ne_of_lt (hA m h1))
    · rcases List.mem_cons.mp h1 with h2 | h2
      · exact h2
      · exact absurd hmd (Nat.ne_of_gt (hB m h2))
  have hfind := find?_day_eq_some (A ++ x :: B) x day (by simp) hx huniq
  simp [getStatus, hfind]

theorem forall_ne_of_getStatus_none (l : List Mark) (day : Nat)
    (h : getStatus l day = none) : ∀ m ∈ l, m.d ≠ day := by
  intro m hm
  have hfind : l.find? (fun m => m.d == day) = none := by
    rcases hf : l.find? (fun m => m.d == day) with _ | x
    · exact hf
    · rw [getStatus, hf] at h
      simp at h
  have := List.find?_eq_none.mp hfind m hm
  simpa using this

theorem filter_ne_day_all (l : List Mark) (day : Nat) (h : ∀ m ∈ l, m.d ≠ day) :
    l.filter (fun m => decide (m.d ≠ day)) = l :=
  List.filter_eq_self.mpr (fun m hm => by simpa using h m hm)

theorem filter_ne_day_mid (A B : List Mark) (x : Mark) (day : Nat)
    (hA : ∀ a ∈ A, a.d < day) (hB : ∀ b ∈ B, day < b.d) (hx : x.d = day) :
    (A ++ x :: B).filter (fun m => decide (m.d ≠ day)) = A ++ B := by
  rw [List.filter_append, List.filter_cons]
  have hxf : (decide (x.d ≠ day)) = false := by simp [hx]
  rw [hxf]
  simp only [Bool.false_eq_true, if_false]
  rw [filter_ne_day_all A day (fun a ha => Nat.ne_of_lt (hA a ha)),
    filter_ne_day_all B day (fun b hb => Nat.ne_of_gt (hB b hb))]

theorem setStatus_split_insert (A B : List Mark) (day : Nat) (s : DayStatus)
    (hAB : MarkSortedLe (A ++ B)) (hA : ∀ a ∈ A, a.d < day) (hB : ∀ b ∈ B, day < b.d) :
    setStatus (A ++ B) day (some s) = A ++ Mark.mk day s :: B := by
  show ((A ++ B).filter (fun m => decide (m.d ≠ day)) ++ [Mark.mk day s]).mergeSort markLe
    = A ++ Mark.mk day s :: B
  have hne : ∀ m ∈ A ++ B, m.d ≠ day := by
    intro m hm
    rcases List.mem_append.mp hm with h1 | h1
    · exact Nat.ne_of_lt (hA m h1)
    · exact Nat.ne_of_gt (hB m h1)
  rw [filter_ne_day_all (A ++ B) day hne]
  exact mergeSort_sorted_insert hAB hA hB

theorem setStatus_mid_insert (A B : List Mark) (x : Mark) (day : Nat) (s : DayStatus)
    (hAB : MarkSortedLe (A ++ B)) (hA : ∀ a ∈ A, a.d < day) (hB : ∀ b ∈ B, day < b.d)
    (hx : x.d = day) :
    setStatus (A ++ x :: B) day (some s) = A ++ Mark.mk day s :: B := by
  show ((A ++ x :: B).filter (fun m => decide (m.d ≠ day)) ++ [Mark.mk day s]).mergeSort markLe
    = A ++ Mark.mk day s :: B
  rw [filter_ne_day_mid A B x day hA hB hx]
  exact mergeSort_sorted_insert hAB hA hB

theorem setStatus_mid_remove (A B : List Mark) (x : Mark) (day : Nat)
    (hA : ∀ a ∈ A, a.d < day) (hB : ∀ b ∈ B, day < b.d) (hx : x.d = day) :
    setStatus (A ++ x :: B) day none = A ++ B := by
  show (A ++ x :: B).filter (fun m => decide (m.d ≠ day)) = A ++ B
  exact filter_ne_day_mid A B x day hA hB hx

/-- A strictly day-sorted list with no mark on `day` splits at `day`. -/
theorem split_of_forall_ne (marks : List Mark) (day : Nat)
    (hs : MarkSortedLt marks) (h : ∀ m ∈ marks, m.d ≠ day) :
    ∃ A B, marks = A ++ B ∧ (∀ a ∈ A, a.d < day) ∧ (∀ b ∈ B, day < b.d) := by
  induction marks with
  | nil => exact ⟨[], [], rfl, by simp, by simp⟩
  | cons a t ih =>
    have hcons := List.pairwise_cons.mp hs
    rcases Nat.lt_or_ge a.d day with hlt | hge
    · obtain ⟨A, B, hAB, hA, hB⟩ := ih hcons.2 (fun m hm => h m (List.mem_cons_of_mem a hm))
      refine ⟨a :: A, B, by simp [hAB], ?_, hB⟩
      intro a' ha'
      rcases List.mem_cons.mp ha' with h1 | h1
      · exact h1 ▸ hlt
      · exact hA a' h1
    · have hgt : day < a.d :=
        Nat.lt_of_le_of_ne hge (Ne.symm (h a (List.mem_cons_self a t)))
      refine ⟨[], a :: t, rfl, by simp, ?_⟩
      intro b hb
      rcases List.mem_cons.mp hb with h1 | h1
      · exact h1 ▸ hgt
      · exact Nat.lt_trans hgt (hcons.1 b h1)

/-- A strictly day-sorted list whose `getStatus` finds `day` splits around the
unique mark on `day`. -/
theorem split_of_getStatus_some (marks : List Mark) (day : Nat) (s : DayStatus)
    (hs : MarkSortedLt marks) (h : getStatus marks day = some s) :
    ∃ A B, marks = A ++ Mark.mk day s :: B ∧
      (∀ a ∈ A, a.d < day) ∧ (∀ b ∈ B, day < b.d) := by
  rcases hf : marks.find? (fun m => m.d == day) with _ | x
  · rw [getStatus, hf] at h
    simp at h
  · rw [getStatus, hf] at h
    simp only [Option.map_some'] at h
    have hstat : x.status = s := Option.some.inj h
    have hmem : x ∈ marks := List.mem_of_find?_eq_some hf
    have hxd : x.d = day := by simpa using List.find?_some hf
    have hxe : x = Mark.mk day s := by
      cases x
      simp only [Mark.mk.injEq]
      exact ⟨hxd, hstat⟩
    obtain ⟨A, B, hsplit⟩ := List.append_of_mem hmem
    rw [hsplit] at hs
    have hpw := List.pairwise_append.mp hs
    refine ⟨A, B, by rw [hsplit, hxe], ?_, ?_⟩
    · intro a ha
      have := hpw.2.2 a ha x (List.mem_cons_self x B)
      omega
    · intro b hb
      have := (List.pairwise_cons.mp hpw.2.1).1 b hb
      omega

theorem markSortedLt_drop_mid {A B : List Mark} {x : Mark}
    (h : MarkSortedLt (A ++ x :: B)) : MarkSortedLt (A ++ B) :=
  List.Pairwise.sublist ((List.sublist_cons_self x B).append_left A) h

/-- One unguarded click: the cycle applied through `setStatus`. -/
def cycleStep (marks : List Mark) (day : Nat) : List Mark :=
  setStatus marks day (nextStatus3 (getStatus marks day))

/-- Three unguarded clicks on the same day restore a strictly day-sorted
marks list. -/
theorem cycleStep_three (marks : List Mark) (day : Nat)
    (hsort : MarkSortedLt marks) :
    cycleStep (cycleStep (cycleStep marks day) day) day = marks := by
  rcases hg : getStatus marks day with _ | s
  · obtain ⟨A, B, hAB, hA, hB⟩ :=
      split_of_forall_ne marks day hsort (forall_ne_of_getStatus_none marks day hg)
    have hle : MarkSortedLe (A ++ B) := markSortedLe_of_lt (hAB ▸ hsort)
    have h1 : cycleStep marks day = A ++ Mark.mk day DayStatus.office :: B := by
      rw [cycleStep, hg, hAB]
      exact setStatus_split_insert A B day DayStatus.office hle hA hB
    have hg2 : getStatus (A ++ Mark.mk day DayStatus.office :: B) day =
        some DayStatus.office :=
      getStatus_split_mid A B (Mark.mk day DayStatus.office) day rfl hA hB
    have h2 : cycleStep (cycleStep marks day) day =
        A ++ Mark.mk day DayStatus.excused :: B := by
      rw [h1, cycleStep, hg2]
      exact setStatus_mid_insert A B (Mark.mk day DayStatus.office) day
        DayStatus.excused hle hA hB rfl
    have hg3 : getStatus (A ++ Mark.mk day DayStatus.excused :: B) day =
        some DayStatus.excused :=
      getStatus_split_mid A B (Mark.mk day DayStatus.excused) day rfl hA hB
    rw [h2, cycleStep, hg3]
    rw [show nextStatus3 (some DayStatus.excused) = none from rfl]
    rw [setStatus_mid_remove A B (Mark.mk day DayStatus.excused) day hA hB rfl]
    exact hAB.symm
  · obtain ⟨A, B, hAB, hA, hB⟩ := split_of_getStatus_some marks day s hsort hg
    have hle : MarkSortedLe (A ++ B) :=
      markSortedLe_of_lt (markSortedLt_drop_mid (hAB ▸ hsort))
    have hgnone : getStatus (A ++ B) day = none := by
      apply getStatus_none_of_bounds
      intro m hm
      rcases List.mem_append.mp hm with h1 | h1
      · exact Nat.ne_of_lt (hA m h1)
      · exact Nat.ne_of_gt (hB m h1)
    cases s
    · have h1 : cycleStep marks day = A ++ Mark.mk day DayStatus.excused :: B := by
        rw [cycleStep, hg, hAB]
        exact setStatus_mid_insert A B (Mark.mk day DayStatus.office) day
          DayStatus.excused hle hA hB rfl
      have hg2 : getStatus (A ++ Mark.mk day DayStatus.excused :: B) day =
          some DayStatus.excused :=
        getStatus_split_mid A B (Mark.mk day DayStatus.excused) day rfl hA hB
      have h2 : cycleStep (cycleStep marks day) day = A ++ B := by
        rw [h1, cycleStep, hg2]
        exact setStatus_mid_remove A B (Mark.mk day DayStatus.excused) day hA hB rfl
      rw [h2, cycleStep, hgnone]
      rw [show nextStatus3 none = some DayStatus.office from rfl]
      rw [setStatus_split_insert A B day DayStatus.office hle hA hB]
      exact hAB.symm
    · have h1 : cycleStep marks day = A ++ B := by
        rw [cycleStep, hg, hAB]
        exact setStatus_mid_remove A B (Mark.mk day DayStatus.excused) day hA hB rfl
      have h2 : cycleStep (cycleStep marks day) day =
          A ++ Mark.mk day DayStatus.office :: B := by
        rw [h1, cycleStep, hgnone]
        exact setStatus_split_insert A B day DayStatus.office hle hA hB
      have hg3 : getStatus (A ++ Mark.mk day DayStatus.office :: B) day =
          some DayStatus.office :=
        getStatus_split_mid A B (Mark.mk day DayStatus.office) day rfl hA hB
      rw [h2, cycleStep, hg3]
      rw [show nextStatus3 (some DayStatus.office) = some DayStatus.excused from rfl]
      rw [setStatus_mid_insert A B (Mark.mk day DayStatus.office) day
        DayStatus.excused hle hA hB rfl]
      exact hAB.symm

/-- C2: the per-day state machine cycles unmarked → present → excused →
unmarked: for every marks list sorted strictly ascending by day and every
mutable day (not a weekend, not a holiday, not blocked by the past-day guard
of the current month), applying `toggleDay` three times to that day returns
the original marks list. -/
theorem toggleDay_three_cycle (c : CalCtx) (cur : Bool) (td : Nat)
    (marks : List Mark) (day : Nat)
    (hsort : MarkSortedLt marks)
    (hw : isWeekend c day = false) (hh : isHoliday c day = false)
    (hp : (cur && decide (day < td)) = false) :
    toggleDay c cur td (toggleDay c cur td (toggleDay c cur td marks day) day) day
      = marks := by
  have hstep : ∀ l, toggleDay c cur td l day = cycleStep l day := by
    intro l
    simp [toggleDay, hw, hh, hp, cycleStep]
  rw [hstep, hstep, hstep]
  exact cycleStep_three marks day hsort

/-- Witness for C2 at a concrete mutable day of the sample month. -/
theorem toggleDay_three_cycle_witness :
    toggleDay sampleCtx true 2
      (toggleDay sampleCtx true 2 (toggleDay sampleCtx true 2 sampleMarks 3) 3) 3
      = sampleMarks :=
  toggleDay_three_cycle sampleCtx true 2 sampleMarks 3
    (by decide) (by decide) (by decide) (by decide)

/-- Applying `setStatus` with a status yields a sorted list splitting around the fresh
mark, with all other days strictly on the correct side. -/
theorem setStatus_some_split (l : List Mark) (day : Nat) (s : DayStatus) :
    ∃ A B, setStatus l day (some s) = A ++ Mark.mk day s :: B ∧
      (∀ a ∈ A, a.d < day) ∧ (∀ b ∈ B, day < b.d) ∧ MarkSortedLe (A ++ B) := by
  have hFd : ∀ m ∈ l.filter (fun m => decide (m.d ≠ day)), m.d ≠ day := by
    intro m hm
    have := (List.mem_filter.mp hm).2
    simpa using this
  have hset : setStatus l day (some s) =
      (l.filter (fun m => decide (m.d ≠ day)) ++ [Mark.mk day s]).mergeSort markLe := rfl
  have hperm := List.mergeSort_perm
    (l.filter (fun m => decide (m.d ≠ day)) ++ [Mark.mk day s]) markLe
  have hsorted : MarkSortedLe (setStatus l day (some s)) := by
    rw [hset]
    exact markSortedLe_of_pairwise_markLe
      (List.sorted_mergeSort markLe_trans markLe_total _)
  have hxmem : Mark.mk day s ∈ setStatus l day (some s) := by
    rw [hset, List.mem_mergeSort]
    simp
  obtain ⟨A, B, hAB⟩ := List.append_of_mem hxmem
  have hday : ∀ m ∈ setStatus l day (some s), m.d = day → m = Mark.mk day s := by
    intro m hm hmd
    rw [hset] at hm
    rcases List.mem_append.mp (hperm.mem_iff.mp hm) with h1 | h1
    · exact absurd hmd (hFd m h1)
    · simpa using h1
  have hxF : Mark.mk day s ∉ l.filter (fun m => decide (m.d ≠ day)) :=
    fun hc => hFd (Mark.mk day s) hc rfl
  have hcnt : List.count (Mark.mk day s) (setStatus l day (some s)) = 1 := by
    rw [hset, hperm.count_eq, List.count_append, List.count_eq_zero.mpr hxF]
    simp
  have hxAB : Mark.mk day s ∉ A ∧ Mark.mk day s ∉ B := by
    rw [hAB] at hcnt
    simp only [List.count_append, List.count_cons_self] at hcnt
    constructor <;> (rw [← List.count_eq_zero]; omega)
  have hpw := List.pairwise_append.mp (hAB ▸ hsorted)
  have hA : ∀ a ∈ A, a.d < day := by
    intro a ha
    have hle : a.d ≤ day := hpw.2.2 a ha (Mark.mk day s) (List.mem_cons_self _ B)
    have hne : a.d ≠ day := by
      intro hc
      exact hxAB.1 ((hday a (by rw [hAB]; simp [ha]) hc) ▸ ha)
    omega
  have hB : ∀ b ∈ B, day < b.d := by
    intro b hb
    have hle : day ≤ b.d := (List.pairwise_cons.mp hpw.2.1).1 b hb
    have hne : b.d ≠ day := by
      intro hc
      exact hxAB.2 ((hday b (by rw [hAB]; simp [hb]) hc) ▸ hb)
    omega
  refine ⟨A, B, hAB, hA, hB, ?_⟩
  exact List.Pairwise.sublist
    ((List.sublist_cons_self (Mark.mk day s) B).append_left A) (hAB ▸ hsorted)

/-- C9 counterexample: the `none` branch of `setStatus` returns the filtered
list without re-sorting, so on an unsorted input the result is not sorted
ascending by day, contradicting the claim read over every marks list. -/
theorem setStatus_none_unsorted_counterexample :
    setStatus [Mark.mk 2 DayStatus.office, Mark.mk 1 DayStatus.office] 3 none
      = [Mark.mk 2 DayStatus.office, Mark.mk 1 DayStatus.office] ∧
    ¬ MarkSortedLe
      (setStatus [Mark.mk 2 DayStatus.office, Mark.mk 1 DayStatus.office] 3 none) := by
  constructor
  · rfl
  · decide

/-- C9 (amended): `setStatus` with a status replaces the entry for the day and
returns a collection sorted ascending by day; with `none` it removes the
entry, preserving the order of the remaining marks (hence sorted whenever the
input is); it is idempotent for the same status value. -/
theorem setStatus_ops :
    (∀ (l : List Mark) (day : Nat) (s : DayStatus),
      MarkSortedLe (setStatus l day (some s))) ∧
    (∀ (l : List Mark) (day : Nat), MarkSortedLe l →
      MarkSortedLe (setStatus l day none)) ∧
    (∀ (l : List Mark) (day : Nat) (s : DayStatus),
      getStatus (setStatus l day (some s)) day = some s) ∧
    (∀ (l : List Mark) (day : Nat) (s : DayStatus),
      setStatus (setStatus l day (some s)) day (some s) = setStatus l day (some s)) ∧
    (∀ (l : List Mark) (day : Nat),
      setStatus (setStatus l day none) day none = setStatus l day none) ∧
    (∀ (l : List Mark) (day : Nat) (m : Mark),
      m ∈ setStatus l day none ↔ m ∈ l ∧ m.d ≠ day) := by
  refine ⟨?_, ?_, ?_, ?_, ?_, ?_⟩
  · intro l day s
    exact markSortedLe_of_pairwise_markLe
      (List.sorted_mergeSort markLe_trans markLe_total _)
  · intro l day hl
    exact List.Pairwise.filter _ hl
  · intro l day s
    obtain ⟨A, B, heq, hA, hB, hle⟩ := setStatus_some_split l day s
    rw [heq]
    exact getStatus_split_mid A B (Mark.mk day s) day rfl hA hB
  · intro l day s
    obtain ⟨A, B, heq, hA, hB, hle⟩ := setStatus_some_split l day s
    rw [heq, setStatus_mid_insert A B (Mark.mk day s) day s hle hA hB rfl]
  · intro l day
    exact List.filter_eq_self.mpr (fun m hm => (List.mem_filter.mp hm).2)
  · intro l day m
    show m ∈ l.filter (fun m => decide (m.d ≠ day)) ↔ m ∈ l ∧ m.d ≠ day
    rw [List.mem_filter]
    simp

/-- Witness for C9's amended theorem: the one conditional part, removal from a
sorted list, instantiated at a concrete sorted list. -/
theorem setStatus_ops_witness :
    MarkSortedLe (setStatus sampleMarks 3 none) :=
  setStatus_ops.2.1 sampleMarks 3 (by decide)

/-- C1: `neededDays` realises the spec's two-stage rounding formula, meets the
documented values, and differs from a single combined rounding on some input
(witness: requiredPercent 25, employmentFraction 50, workdayCount 2). -/
theorem neededDays_two_stage :
    (∀ rp ef wc : Nat, neededDays rp ef wc = requiredDaysSpec rp ef wc) ∧
    neededDays 40 100 20 = 8 ∧ neededDays 40 50 20 = 4 ∧
    ∃ rp ef wc : Nat, neededDays rp ef wc ≠ requiredDaysCombined rp ef wc := by
  refine ⟨fun rp ef wc => rfl, ?_, ?_, 25, 50, 2, ?_⟩
  · norm_num [neededDays, baseNeeded, jsRound]
  · norm_num [neededDays, baseNeeded, jsRound]
  · norm_num [neededDays, baseNeeded, requiredDaysCombined, jsRound]

/-- C3: `workdays` is exactly the ascending list of days of the month that are
not weekend, not holiday, and not marked excused. -/
theorem workdays_characterization (c : CalCtx) (marks : List Mark) :
    (workdays c marks).Pairwise (· < ·) ∧
    ∀ d : Nat, d ∈ workdays c marks ↔
      1 ≤ d ∧ d ≤ c.daysInMonth ∧ isWeekend c d = false ∧ isHoliday c d = false ∧
      ¬ ∃ m ∈ marks, m.d = d ∧ m.status = DayStatus.excused := by
  constructor
  · exact List.Pairwise.filter _ (List.pairwise_lt_range' 1 c.daysInMonth)
  · intro d
    rw [workdays, List.mem_filter, List.mem_range'_1]
    have hex : d ∈ excusedSet marks ↔
        ∃ m ∈ marks, m.d = d ∧ m.status = DayStatus.excused := by
      simp only [excusedSet, List.mem_map, List.mem_filter, beq_iff_eq]
      constructor
      · rintro ⟨m, ⟨hm, hst⟩, hd⟩
        exact ⟨m, hm, hd, hst⟩
      · rintro ⟨m, hm, hd, hst⟩
        exact ⟨m, ⟨hm, hst⟩, hd⟩
    have hcont : ((excusedSet marks).contains d = false) ↔ d ∉ excusedSet marks := by
      simp [List.contains]
    constructor
    · rintro ⟨⟨h1, h2⟩, h3⟩
      simp only [Bool.and_eq_true, Bool.not_eq_true'] at h3
      refine ⟨h1, by omega, h3.1.1, h3.1.2, ?_⟩
      rw [← hex]
      exact hcont.mp h3.2
    · rintro ⟨h1, h2, h3, h4, h5⟩
      refine ⟨⟨h1, by omega⟩, ?_⟩
      simp only [Bool.and_eq_true, Bool.not_eq_true']
      refine ⟨⟨h3, h4⟩, ?_⟩
      rw [← hex] at h5
      exact hcont.mpr h5

/-- C4: the guard of `toggleDay`: weekends, holidays, and past days of the
live current month are no-ops; for any other displayed month the past-day
guard never fires, so the transition is applied regardless of the date. -/
theorem toggleDay_guard :
    (∀ (c : CalCtx) (cur : Bool) (td : Nat) (marks : List Mark) (day : Nat),
      (isWeekend c day || isHoliday c day) = true ∨ (cur = true ∧ day < td) →
      toggleDay c cur td marks day = marks) ∧
    (∀ (c : CalCtx) (cur : Bool) (td : Nat) (marks : List Mark) (day : Nat),
      isWeekend c day = false → isHoliday c day = false → cur = false →
      toggleDay c cur td marks day =
        setStatus marks day (nextStatus3 (getStatus marks day))) := by
  constructor
  · rintro c cur td marks day (h | ⟨hc, hd⟩)
    · simp [toggleDay, h]
    · by_cases hw : (isWeekend c day || isHoliday c day) = true
      · simp [toggleDay, hw]
      · simp [toggleDay, hw, hc, hd]
  · intro c cur td marks day hw hh hc
    simp [toggleDay, hw, hh, hc]

/-- Witness for C4: a weekend no-op and an other-month past-day toggle of the
sample month. -/
theorem toggleDay_guard_witness :
    toggleDay sampleCtx true 10 sampleMarks 7 = sampleMarks ∧
    toggleDay sampleCtx false 10 sampleMarks 1 =
      setStatus sampleMarks 1 (nextStatus3 (getStatus sampleMarks 1)) :=
  ⟨toggleDay_guard.1 sampleCtx true 10 sampleMarks 7 (Or.inl (by decide)),
   toggleDay_guard.2 sampleCtx false 10 sampleMarks 1 (by decide) (by decide) rfl⟩

/-- C5: loading a legacy record with `days: [3,7,12]` yields three present marks,
the employment fraction defaults to 100, and every write payload the code
builds carries no legacy `days` field. -/
theorem legacy_migration :
    (∀ rp ep, loadMarks (MonthDoc.mk none (some [3, 7, 12]) rp ep) =
      [Mark.mk 3 DayStatus.office, Mark.mk 7 DayStatus.office,
        Mark.mk 12 DayStatus.office]) ∧
    (∀ mks ds rp, loadEmploymentPercent (MonthDoc.mk mks ds rp none) = 100) ∧
    (∀ nm rp ep, (clickPayload nm rp ep).days = none) ∧
    (∀ v, (savePercentPayload v).days = none) ∧
    (∀ v, (saveEmploymentPayload v).days = none) ∧
    initPayload.days = none :=
  ⟨fun _ _ => rfl, fun _ _ _ => rfl, fun _ _ _ => rfl,
   fun _ => rfl, fun _ => rfl, rfl⟩

/-- C6: `presentDays` counts exactly the marks that are present and fall on a
workday; a present mark outside the workday set contributes nothing. -/
theorem presentDays_spec :
    (∀ (marks : List Mark) (wd : List Nat), presentDays marks wd =
      (marks.filter
        (fun m => decide (m.status = DayStatus.office ∧ m.d ∈ wd))).length) ∧
    (∀ (marks : List Mark) (wd : List Nat) (m : Mark), m.d ∉ wd →
      presentDays (m :: marks) wd = presentDays marks wd) := by
  constructor
  · intro marks wd
    rw [presentDays]
    congr 1
    apply List.filter_congr
    intro m _
    simp only [List.contains, List.elem_eq_mem, Bool.decide_and]
    rfl
  · intro marks wd m hm
    have hcf : wd.contains m.d = false := by
      simpa [List.contains] using hm
    rw [presentDays, presentDays, List.filter_cons, hcf, Bool.and_false]
    simp

/-- Witness for C6's conditional part at a concrete non-workday mark. -/
theorem presentDays_spec_witness :
    presentDays (Mark.mk 6 DayStatus.office :: sampleMarks)
      (workdays sampleCtx sampleMarks) =
    presentDays sampleMarks (workdays sampleCtx sampleMarks) :=
  presentDays_spec.2 sampleMarks (workdays sampleCtx sampleMarks)
    (Mark.mk 6 DayStatus.office) (by decide)

/-- C7: the shortfall is `max 0 (requiredDays - presentCount)`, and the
documented end-to-end scenario holds on the 20-workday sample month with five
present days, requiredPercent 40 and employmentFraction 100. -/
theorem shortfall_end_to_end :
    (∀ (needed : ℤ) (pc : Nat), missing needed pc = max 0 (needed - (pc : ℤ))) ∧
    (workdays sampleCtx sampleMarks).length = 20 ∧
    presentDays sampleMarks (workdays sampleCtx sampleMarks) = 5 ∧
    percent (presentDays sampleMarks (workdays sampleCtx sampleMarks))
      ((workdays sampleCtx sampleMarks).length) = 25 ∧
    neededDays 40 100 ((workdays sampleCtx sampleMarks).length) = 8 ∧
    missing (neededDays 40 100 ((workdays sampleCtx sampleMarks).length))
      (presentDays sampleMarks (workdays sampleCtx sampleMarks)) = 3 := by
  have hwd : (workdays sampleCtx sampleMarks).length = 20 := by decide
  have hpd : presentDays sampleMarks (workdays sampleCtx sampleMarks) = 5 := by decide
  have hnd : neededDays 40 100 20 = 8 := by
    norm_num [neededDays, baseNeeded, jsRound]
  refine ⟨fun needed pc => rfl, hwd, hpd, ?_, ?_, ?_⟩
  · rw [hwd, hpd]
    norm_num [percent]
  · rw [hwd]
    exact hnd
  · rw [hwd, hpd, hnd]
    decide

/-- C8: `percent` is total: zero on an empty workday set and the exact ratio
otherwise. -/
theorem percent_total :
    (∀ pc : Nat, percent pc 0 = 0) ∧
    (∀ pc wc : Nat, wc ≠ 0 → percent pc wc = 100 * (pc : ℚ) / (wc : ℚ)) ∧
    percent 0 0 = 0 := by
  refine ⟨fun pc => rfl, ?_, rfl⟩
  intro pc wc h
  rw [percent, if_neg h]
  ring

/-- Witness for C8's conditional part. -/
theorem percent_total_witness :
    percent 1 2 = 100 * ((1 : Nat) : ℚ) / ((2 : Nat) : ℚ) :=
  percent_total.2.1 1 2 (by decide)

theorem workdays_nodup (c : CalCtx) (marks : List Mark) : (workdays c marks).Nodup :=
  (List.Pairwise.filter _ (List.pairwise_lt_range' 1 c.daysInMonth)).imp Nat.ne_of_lt

/-- With at most one mark per day, `presentDays` is bounded by the number of
workdays: the counted marks have distinct days, all within the workday set. -/
theorem presentDays_le_length (marks : List Mark) (wd : List Nat)
    (hnd : (marks.map Mark.d).Nodup) :
    presentDays marks wd ≤ wd.length := by
  rw [presentDays]
  have hsubl : ((marks.filter
      (fun m => m.status == DayStatus.office && wd.contains m.d)).map Mark.d).Sublist
      (marks.map Mark.d) :=
    (List.filter_sublist marks).map Mark.d
  have hsub : ((marks.filter
      (fun m => m.status == DayStatus.office && wd.contains m.d)).map Mark.d).Nodup :=
    List.Nodup.sublist hsubl hnd
  have hss : ((marks.filter
      (fun m => m.status == DayStatus.office && wd.contains m.d)).map Mark.d) ⊆ wd := by
    intro d hd
    obtain ⟨m, hm, rfl⟩ := List.mem_map.mp hd
    have hf := (List.mem_filter.mp hm).2
    have h2 := (Bool.and_eq_true _ _ |>.mp hf).2
    simpa [List.contains] using h2
  have hle := (List.subperm_of_subset hsub hss).length_le
  simpa using hle

theorem percent_bounds_of_le (pc wc : Nat) (h : pc ≤ wc) :
    0 ≤ percent pc wc ∧ percent pc wc ≤ 100 := by
  rcases Nat.eq_zero_or_pos wc with h0 | hpos
  · subst h0
    simp [percent]
  · have hw : (0 : ℚ) < (wc : ℚ) := by exact_mod_cast hpos
    rw [percent, if_neg (Nat.pos_iff_ne_zero.mp hpos)]
    constructor
    · positivity
    · have h1 : (pc : ℚ) / (wc : ℚ) ≤ 1 := by
        rw [div_le_one hw]
        exact_mod_cast h
      calc ((pc : ℚ) / (wc : ℚ)) * 100 ≤ 1 * 100 :=
            mul_le_mul_of_nonneg_right h1 (by norm_num)
        _ = 100 := by norm_num

/-- C10: with at most one mark per day, `presentDays` never exceeds the size
of the workday set, so the attendance percentage lies in [0, 100]. -/
theorem attendance_percent_bounds (c : CalCtx) (marks : List Mark)
    (hnd : (marks.map Mark.d).Nodup) :
    presentDays marks (workdays c marks) ≤ (workdays c marks).length ∧
    0 ≤ percent (presentDays marks (workdays c marks))
      ((workdays c marks).length) ∧
    percent (presentDays marks (workdays c marks))
      ((workdays c marks).length) ≤ 100 := by
  have h1 := presentDays_le_length marks (workdays c marks) hnd
  exact ⟨h1, (percent_bounds_of_le _ _ h1).1, (percent_bounds_of_le _ _ h1).2⟩

/-- Witness for C10 at the sample month. -/
theorem attendance_percent_bounds_witness :
    presentDays sampleMarks (workdays sampleCtx sampleMarks) ≤
      (workdays sampleCtx sampleMarks).length ∧
    0 ≤ percent (presentDays sampleMarks (workdays sampleCtx sampleMarks))
      ((workdays sampleCtx sampleMarks).length) ∧
    percent (presentDays sampleMarks (workdays sampleCtx sampleMarks))
      ((workdays sampleCtx sampleMarks).length) ≤ 100 :=
  attendance_percent_bounds sampleCtx sampleMarks (by decide)
